import Mathlib

/-!
# Verification of the stream statistics engines

Shallow embedding of the incremental moment engines of the `stream`
repository: the univariate engine (`moment.Core`, `src/joint/metric.go`)
and the joint engine (`joint.Core`, `src/joint/core.go`).  Floating-point
arithmetic is idealized as exact rational arithmetic (`ℚ`), which is the
intended reading of the spec's "within tolerance / up to floating-point
rounding" phrasing.  Go `int` is embedded as `ℤ`, Go slices as `List ℚ`,
and the Go maps keyed by tuple hashes as total functions `List ℕ → ℚ`
(reading an absent key of a Go map yields `0`, matching a total function
that is `0` outside the keys ever written).
-/

namespace StreamSpec

/-- Modelled from the spec: the parity sign `(−1)^k` used by the update
recurrences (§4.1 "the parity sign (−1)^k"); `mathutil.Sign` is not part of
the provided sources. -/
def sign (k : ℕ) : ℚ := (-1) ^ k

/-- Modelled from the spec: the binomial coefficient used by the univariate
recurrence (§4.1 "binomial coefficients"); `mathutil.Binom` is not part of
the provided sources. -/
def binom (k i : ℕ) : ℚ := (Nat.choose k i : ℚ)

/-- State of the univariate `moment.Core` engine (`src/joint/metric.go`):
running mean, centralized power sums indexed by order (`sums[k]` is the
k-th order accumulator, length = max tracked order + 1), observation
count, window size (0 = unbounded), optional decay, and the window buffer
(front = oldest element). -/
structure MState where
  mean : ℚ
  sums : List ℚ
  count : ℤ
  window : ℕ
  decay : Option ℚ
  queue : List ℚ
deriving Repr, DecidableEq

/-- The list of orders `[2, …, len−1]` visited by the update loops of
`moment.Core.add` / `addDecay` / `remove` (they run between 2 and
`len(c.sums)−1` inclusive). -/
def loopKs (len : ℕ) : List ℕ := List.range' 2 (len - 2)

/-- The value `moment.Core.add` assigns to `sums[k]`: the old entry plus
the direct `δ^k` term plus the binomial cross terms reading `sums[k−i]`. -/
def addVal (c δ : ℚ) (s : List ℚ) (k : ℕ) : ℚ :=
  s.getD k 0 +
    (c - 1) / c ^ k * ((c - 1) ^ (k - 1) + sign k) * δ ^ k +
    ((List.range' 1 (k - 2)).map fun i =>
      binom k i * sign i * (δ / c) ^ i * s.getD (k - i) 0).sum

/-- One iteration of the descending loop of `moment.Core.add`
(`metric.go`): update `sums[k]` in place; the cross terms read the current
array at indices `k − i < k`, which the descending loop has not yet
touched. -/
def addStep (c δ : ℚ) (s : List ℚ) (k : ℕ) : List ℚ :=
  s.set k (addVal c δ s k)

/-- `moment.Core.add`: increment the count, update the mean by
`delta / count`, then run the descending in-place loop over the orders. -/
def momentAdd (x : ℚ) (s : MState) : MState :=
  let c : ℚ := ((s.count + 1 : ℤ) : ℚ)
  let δ := x - s.mean
  { s with
    count := s.count + 1
    mean := s.mean + δ / c
    sums := ((loopKs s.sums.length).reverse).foldl (addStep c δ) s.sums }

/-- The value `moment.Core.addDecay` assigns to `sums[k]`:
`(1−d)·sums[k] + coeff·δ^k + Σ cross`. -/
def decayVal (d δ : ℚ) (s : List ℚ) (k : ℕ) : ℚ :=
  (1 - d) * s.getD k 0 +
    ((1 - d) * (-d) ^ k + d * (1 - d) ^ k) * δ ^ k +
    ((List.range' 1 (k - 2)).map fun i =>
      binom k i * sign i * (d * δ) ^ i * (1 - d) * s.getD (k - i) 0).sum

/-- One iteration of the descending loop of `moment.Core.addDecay`
(`metric.go`): update `sums[k]` in place. -/
def decayStep (d δ : ℚ) (s : List ℚ) (k : ℕ) : List ℚ :=
  s.set k (decayVal d δ s k)

/-- The value `moment.Core.remove` assigns to `sums[k]`: the current entry
minus the direct term minus the cross terms reading `sums[k−i]`. -/
def removeVal (c δ : ℚ) (s : List ℚ) (k : ℕ) : ℚ :=
  s.getD k 0 -
    c / (c + 1) ^ k * (c ^ (k - 1) + sign k) * δ ^ k -
    ((List.range' 1 (k - 2)).map fun i =>
      binom k i * sign i * (δ / (c + 1)) ^ i * s.getD (k - i) 0).sum

/-- `moment.Core.addDecay`: the first observation (count becomes 1) is
treated as having decay 1; otherwise the configured decay is used. -/
def momentAddDecay (x : ℚ) (s : MState) : MState :=
  let d : ℚ := if s.count + 1 = 1 then 1 else s.decay.getD 0
  let δ := x - s.mean
  { s with
    count := s.count + 1
    mean := s.mean + d * δ
    sums := ((loopKs s.sums.length).reverse).foldl (decayStep d δ) s.sums }

/-- One iteration of the ascending loop of `moment.Core.remove`
(`metric.go`): update `sums[k]` in place; the cross terms read the current
array at indices `k − i < k`, which the ascending loop has already
updated in this pass. -/
def removeStep (c δ : ℚ) (s : List ℚ) (k : ℕ) : List ℚ :=
  s.set k (removeVal c δ s k)

/-- `moment.Core.remove`: decrement the count; if it stays positive, undo
the mean update and run the ascending in-place loop; otherwise hard-reset
mean and every sum accumulator to exactly 0 (the count stays decremented,
exactly as in the Go code). -/
def momentRemove (x : ℚ) (s : MState) : MState :=
  if s.count - 1 > 0 then
    let c : ℚ := ((s.count - 1 : ℤ) : ℚ)
    let mean' := s.mean - (x - s.mean) / c
    let δ := x - mean'
    { s with
      count := s.count - 1
      mean := mean'
      sums := (loopKs s.sums.length).foldl (removeStep c δ) s.sums }
  else
    { s with
      count := s.count - 1
      mean := 0
      sums := s.sums.map fun _ => 0 }

/-- `moment.Core.UnsafePush`: when windowed and full, pop the oldest
buffered value, remove it, then append the new value; finally run `add`
or `addDecay`.  (The `ErrorPoppingQueue` branch of the Go code requires
an empty ring buffer whose length equals the nonzero window, which cannot
happen; it is modelled as the identity on that dead branch.) -/
def momentUnsafePush (x : ℚ) (s : MState) : MState :=
  let s1 :=
    if s.window ≠ 0 then
      if s.queue.length = s.window then
        match s.queue with
        | [] => s
        | t :: rest => { momentRemove t s with queue := rest ++ [x] }
      else { s with queue := s.queue ++ [x] }
    else s
  if s1.decay = none then momentAdd x s1 else momentAddDecay x s1

/-- Errors surfaced by the univariate engine's query methods. -/
inductive MomErr where
  | noValuesSeen
  | untrackedSum (k : ℤ)
deriving Repr, DecidableEq

/-- `moment.Core.UnsafeSum`: "no values seen yet" when `count == 0`,
"not a tracked power sum" when `k ≤ 0` or `k ≥ len(sums)`, otherwise the
k-th accumulator. -/
def momentUnsafeSum (k : ℤ) (s : MState) : Except MomErr ℚ :=
  if s.count = 0 then .error .noValuesSeen
  else if k ≤ 0 ∨ (s.sums.length : ℤ) ≤ k then .error (.untrackedSum k)
  else .ok (s.sums.getD k.toNat 0)

/-- `moment.Core.UnsafeMean`. -/
def momentUnsafeMean (s : MState) : Except MomErr ℚ :=
  if s.count = 0 then .error .noValuesSeen else .ok s.mean

/-- `maxSum` computed by `moment.NewCore`: the largest requested order,
starting from −1 so that an empty request set yields a zero-length
accumulator array. -/
def maxSum (orders : List ℤ) : ℤ := orders.foldl max (-1)

/-- `moment.NewCore`: a fresh engine; `sums` has length `maxSum + 1` and
is all zeros, the ring buffer is empty. -/
def momentNewCore (orders : List ℤ) (window : ℕ) (decay : Option ℚ) : MState :=
  { mean := 0
    sums := List.replicate (maxSum orders + 1).toNat 0
    count := 0
    window := window
    decay := decay
    queue := [] }

/-- Push a whole list of observations, oldest first. -/
def momentPushList (xs : List ℚ) (s : MState) : MState :=
  xs.foldl (fun s x => momentUnsafePush x s) s

/-- Direct batch recomputation: the mean of a finite list. -/
def batchMean (xs : List ℚ) : ℚ := xs.sum / (xs.length : ℚ)

/-- Direct batch recomputation: the k-th centralized power sum
`Σ (x − mean)^k` over a finite list. -/
def batchSum (k : ℕ) (xs : List ℚ) : ℚ :=
  (xs.map fun x => (x - batchMean xs) ^ k).sum

/-! ## The joint engine (`joint.Core`, `src/joint/core.go`) -/

/-- Exponent tuples: fixed-length sequences of non-negative integers. -/
abbrev Tuple := List ℕ

/-- Modelled from the spec: the enumeration of all tuples `b` with
`0 ≤ b ≤ t` componentwise performed by the Go helper `iter` (not part of
the provided sources), in an order in which every tuple appears after all
of its componentwise-smaller tuples (§4.2: sub-sums are visited "in
increasing order of magnitude").  `iter(t, false, f)` visits `subTuples t`
front to back and `iter(t, true, f)` visits it back to front. -/
def subTuples : Tuple → List Tuple
  | [] => [[]]
  | n :: rest => (List.range (n + 1)).flatMap fun i => (subTuples rest).map fun bs => i :: bs

/-- `Tuple.abs`: the magnitude (sum of the components) of a tuple. -/
def tupleAbs (t : Tuple) : ℕ := t.sum

/-- Modelled from the spec: `Π_i delta_i ^ b_i` (the Go helper `pow` is
not part of the provided sources; it can only fail on a length mismatch,
which cannot occur for the sub-tuples it is applied to here). -/
def powProd (δ : List ℚ) (b : Tuple) : ℚ :=
  ((δ.zip b).map fun p => p.1 ^ p.2).prod

/-- Modelled from the spec: the multinomial coefficient `Π_i C(a_i, b_i)`
between a tuple and a sub-tuple (§2; the Go helper `multinom` is not part
of the provided sources). -/
def multinom (a b : Tuple) : ℚ :=
  ((a.zip b).map fun p => (Nat.choose p.1 p.2 : ℚ)).prod

/-- Modelled from the spec: componentwise tuple subtraction (§2:
"componentwise subtraction (fails if any resulting component is
negative)").  At every call site below it is applied with `b ≤ a`
componentwise, where the failure case is impossible, so it is embedded as
total ℕ-subtraction. -/
def tupleSub (a b : Tuple) : Tuple :=
  (a.zip b).map fun p => p.1 - p.2

/-- The key set of the Go `sums`/`newSums` maps as initialized by
`joint.NewCore`: every sub-tuple of every requested target tuple. -/
def closureL (tuples : List Tuple) : List Tuple := tuples.flatMap subTuples

/-- State of the `joint.Core` engine (`src/joint/core.go`).  The Go maps
`sums`/`newSums` (keyed by collision-free tuple hashes) are embedded as
total functions that are `0` outside the keys ever written, matching Go's
zero value for absent keys; `tracked` is the maps' key set. -/
structure JState where
  means : List ℚ
  tuples : List Tuple
  sums : Tuple → ℚ
  newSums : Tuple → ℚ
  tracked : List Tuple
  count : ℤ
  window : ℕ
  decay : Option ℚ
  queue : List (List ℚ)

/-- `joint.NewCore`: fresh state, all accumulators zero, the maps keyed by
the sub-tuple closure of the requested target tuples. -/
def jointNewCore (tuples : List Tuple) (vars window : ℕ) (decay : Option ℚ) : JState :=
  { means := List.replicate vars 0
    tuples := tuples
    sums := fun _ => 0
    newSums := fun _ => 0
    tracked := closureL tuples
    count := 0
    window := window
    decay := decay
    queue := [] }

/-- One contribution of the inner loop of `joint.Core.add`: the term
accumulated into the scratch value of sub-tuple `a` for each `b ≤ a`,
reading only the committed pre-push `sums`. -/
def jointAddTerm (c : ℚ) (δ : List ℚ) (sums : Tuple → ℚ) (a b : Tuple) : ℚ :=
  let dp := powProd δ b
  let n := tupleAbs b
  if n = 0 then sums a
  else if b = a then (c - 1) / c ^ n * ((c - 1) ^ (n - 1) + sign n) * dp
  else multinom a b * sign n / c ^ n * dp * sums (tupleSub a b)

/-- The scratch value one target-tuple pass of `joint.Core.add` computes
for sub-tuple `a` (the Go code zeroes `newSums[a]` and accumulates one
term per `b ≤ a`). -/
def jointAddVal (c : ℚ) (δ : List ℚ) (sums : Tuple → ℚ) (a : Tuple) : ℚ :=
  ((subTuples a).map (jointAddTerm c δ sums a)).sum

/-- `joint.Core.add`: bump the count, update each mean, write every target
tuple's scratch values into `newSums` (outer iteration reversed; every
read is of the committed pre-push `sums`), then commit the whole scratch
set into `sums` after the full pass over all target tuples. -/
def jointAdd (xs : List ℚ) (s : JState) : JState :=
  let c : ℚ := ((s.count + 1 : ℤ) : ℚ)
  let δ := (xs.zip s.means).map fun p => p.1 - p.2
  let means := (xs.zip s.means).map fun p => p.2 + (p.1 - p.2) / c
  let ns := s.tuples.foldl (fun ns t =>
    ((subTuples t).reverse).foldl (fun ns a =>
      fun u => if u = a then jointAddVal c δ s.sums a else ns u) ns) s.newSums
  { s with
    count := s.count + 1
    means := means
    newSums := ns
    sums := fun u => if u ∈ s.tracked then ns u else s.sums u }

/-- One contribution of the inner loop of `joint.Core.addDecay`. -/
def jointDecayTerm (d : ℚ) (δ : List ℚ) (sums : Tuple → ℚ) (a b : Tuple) : ℚ :=
  let dp := powProd δ b
  let n := tupleAbs b
  if n = 0 then (1 - d) * sums a
  else if b = a then ((1 - d) * (-d) ^ n + d * (1 - d) ^ n) * dp
  else multinom a b * sign n * d ^ n * dp * (1 - d) * sums (tupleSub a b)

/-- The scratch value one target-tuple pass of `joint.Core.addDecay`
computes for sub-tuple `a`. -/
def jointDecayVal (d : ℚ) (δ : List ℚ) (sums : Tuple → ℚ) (a : Tuple) : ℚ :=
  ((subTuples a).map (jointDecayTerm d δ sums a)).sum

/-- `joint.Core.addDecay`: like `add` but with the decay coefficients; the
first observation is treated as having decay 1. -/
def jointAddDecay (xs : List ℚ) (s : JState) : JState :=
  let d : ℚ := if s.count + 1 = 1 then 1 else s.decay.getD 0
  let δ := (xs.zip s.means).map fun p => p.1 - p.2
  let means := (xs.zip s.means).map fun p => p.2 + d * (p.1 - p.2)
  let ns := s.tuples.foldl (fun ns t =>
    ((subTuples t).reverse).foldl (fun ns a =>
      fun u => if u = a then jointDecayVal d δ s.sums a else ns u) ns) s.newSums
  { s with
    count := s.count + 1
    means := means
    newSums := ns
    sums := fun u => if u ∈ s.tracked then ns u else s.sums u }

/-- One contribution of the inner loop of `joint.Core.remove`: the carry
term (`b = 0`) reads the committed `sums`, but the cross terms read `ns`,
the in-progress scratch accumulator of the same removal. -/
def jointRemoveTerm (c : ℚ) (δ : List ℚ) (sums ns : Tuple → ℚ) (a b : Tuple) : ℚ :=
  let dp := powProd δ b
  let n := tupleAbs b
  if n = 0 then sums a
  else if b = a then -(c / (c + 1) ^ n * (c ^ (n - 1) + sign n) * dp)
  else -(multinom a b * sign n / (c + 1) ^ n * dp * ns (tupleSub a b))

/-- One target-tuple pass of `joint.Core.remove`: ascending over the
sub-tuples of `t`, each scratch value reading the scratch values already
recomputed in this same pass. -/
def jointRemovePass (c : ℚ) (δ : List ℚ) (sums : Tuple → ℚ) (t : Tuple) (ns0 : Tuple → ℚ) :
    Tuple → ℚ :=
  (subTuples t).foldl (fun ns a =>
    fun u => if u = a then ((subTuples a).map (jointRemoveTerm c δ sums ns a)).sum else ns u) ns0

/-- `joint.Core.remove`: decrement the count; if it stays positive, undo
each mean and run one pass per target tuple, committing the whole scratch
set into `sums` after each target tuple's pass (inside the loop over
targets, unlike `add`); otherwise hard-reset the means and every map entry
to exactly 0. -/
def jointRemove (xs : List ℚ) (s : JState) : JState :=
  if s.count - 1 > 0 then
    let c : ℚ := ((s.count - 1 : ℤ) : ℚ)
    let means := (xs.zip s.means).map fun p => p.2 - (p.1 - p.2) / c
    let δ := (xs.zip means).map fun p => p.1 - p.2
    let sn := s.tuples.foldl (fun sn t =>
      let ns := jointRemovePass c δ sn.1 t sn.2
      (fun u => if u ∈ s.tracked then ns u else sn.1 u, ns)) (s.sums, s.newSums)
    { s with count := s.count - 1, means := means, sums := sn.1, newSums := sn.2 }
  else
    { s with
      count := s.count - 1
      means := s.means.map fun _ => 0
      sums := fun u => if u ∈ s.tracked then 0 else s.sums u
      newSums := fun u => if u ∈ s.tracked then 0 else s.newSums u }

/-- Errors surfaced by the joint engine. -/
inductive JErr where
  | arityMismatch (got : ℕ) (vars : ℕ)
  | noValuesSeen
  | untrackedVariable (i : ℤ)
  | untrackedSum (t : List ℤ)
deriving Repr, DecidableEq

/-- `joint.Core.UnsafePush`: the arity check comes first, before any
state mutation; then the windowed pop/remove/append, then `add` or
`addDecay`.  The result is the error (if any) paired with the state after
the call, so "no state mutation on error" is expressible. -/
def jointUnsafePush (xs : List ℚ) (s : JState) : Option JErr × JState :=
  if xs.length ≠ s.means.length then
    (some (JErr.arityMismatch xs.length s.means.length), s)
  else
    let s1 :=
      if s.window ≠ 0 then
        if s.queue.length = s.window then
          match s.queue with
          | [] => s
          | t :: rest => { jointRemove t s with queue := rest ++ [xs] }
        else { s with queue := s.queue ++ [xs] }
      else s
    (none, if s1.decay = none then jointAdd xs s1 else jointAddDecay xs s1)

/-- `joint.Core.UnsafeMean`: "no values seen yet" takes precedence; then
the index bounds check. -/
def jointUnsafeMean (i : ℤ) (s : JState) : Except JErr ℚ :=
  if s.count = 0 then .error .noValuesSeen
  else if i < 0 ∨ (s.means.length : ℤ) ≤ i then .error (.untrackedVariable i)
  else .ok (s.means.getD i.toNat 0)

/-- `joint.Core.UnsafeSum`: "no values seen yet" takes precedence; then
the Go code looks the queried tuple's hash up among the map's keys; the
spec requires the hash to be collision-free, so the lookup succeeds
exactly when the queried tuple equals a tracked key. -/
def jointUnsafeSum (t : List ℤ) (s : JState) : Except JErr ℚ :=
  if s.count = 0 then .error .noValuesSeen
  else
    match s.tracked.find? (fun u => (u.map fun n => (n : ℤ)) == t) with
    | some u => .ok (s.sums u)
    | none => .error (.untrackedSum t)

/-- Push a list of joint observations, oldest first, dropping the error
results (exactly what a sequence of `Push` calls does to the state). -/
def jointPushList (xss : List (List ℚ)) (s : JState) : JState :=
  xss.foldl (fun s xs => (jointUnsafePush xs s).2) s

/-! ### The update discipline exactly as the spec words it (§4.2)

Reference definitions for the refinement claim about the scratch-then-
commit pattern: all scratch values computed from the committed pre-call
`sums` only, and the whole scratch set committed once, after the full
pass over all target tuples — for the push direction and, as the spec
asserts, "mirrored" for the removal direction. -/

/-- The spec's push discipline: every scratch entry of the sub-tuple
closure is a function of the committed pre-push `sums` only, committed
after the full pass. -/
def specJointAdd (xs : List ℚ) (s : JState) : JState :=
  let c : ℚ := ((s.count + 1 : ℤ) : ℚ)
  let δ := (xs.zip s.means).map fun p => p.1 - p.2
  let means := (xs.zip s.means).map fun p => p.2 + (p.1 - p.2) / c
  let ns : Tuple → ℚ := fun u =>
    if u ∈ closureL s.tuples then jointAddVal c δ s.sums u else s.newSums u
  { s with
    count := s.count + 1
    means := means
    newSums := ns
    sums := fun u => if u ∈ s.tracked then ns u else s.sums u }

/-- The spec's removal discipline ("Removal mirrors this with the inverse
coefficients"): every scratch entry computed from the committed
pre-removal `sums` only — also for the cross terms — and committed after
the full pass; same hard reset at count 0. -/
def specJointRemove (xs : List ℚ) (s : JState) : JState :=
  if s.count - 1 > 0 then
    let c : ℚ := ((s.count - 1 : ℤ) : ℚ)
    let means := (xs.zip s.means).map fun p => p.2 - (p.1 - p.2) / c
    let δ := (xs.zip means).map fun p => p.1 - p.2
    let ns : Tuple → ℚ := fun u =>
      if u ∈ closureL s.tuples then
        ((subTuples u).map (jointRemoveTerm c δ s.sums s.sums u)).sum
      else s.newSums u
    { s with
      count := s.count - 1
      means := means
      newSums := ns
      sums := fun u => if u ∈ s.tracked then ns u else s.sums u }
  else
    { s with
      count := s.count - 1
      means := s.means.map fun _ => 0
      sums := fun u => if u ∈ s.tracked then 0 else s.sums u
      newSums := fun u => if u ∈ s.tracked then 0 else s.newSums u }

/-! ## Invariants and reachability -/

/-- The engine-level invariant of the univariate engine: the count is
non-negative and mirrors the buffer length when windowed, a zero count
means the all-zero state, and the order-0/order-1 accumulators are 0. -/
def InvM (s : MState) : Prop :=
  0 ≤ s.count ∧
  (s.window ≠ 0 → s.count = (s.queue.length : ℤ) ∧ s.queue.length ≤ s.window) ∧
  (s.window = 0 → s.queue = []) ∧
  (s.count = 0 → s.mean = 0 ∧ s.sums = List.replicate s.sums.length 0) ∧
  s.sums.getD 0 0 = 0 ∧ s.sums.getD 1 0 = 0

/-- Reachability for the univariate engine: every state obtainable from a
fresh engine (accumulator length `L`, window `w`, decay `d`) by a sequence
of pushes. -/
inductive ReachM (L w : ℕ) (d : Option ℚ) : MState → Prop
  | init : ReachM L w d
      { mean := 0, sums := List.replicate L 0, count := 0, window := w, decay := d, queue := [] }
  | step (x : ℚ) (s : MState) : ReachM L w d s → ReachM L w d (momentUnsafePush x s)

/-- The engine-level invariant of the joint engine: non-negative count
mirroring the buffer when windowed, all-zero accumulators at count 0, and
`sums` vanishing outside the tracked key set. -/
def InvJ (s : JState) : Prop :=
  0 ≤ s.count ∧
  (s.window ≠ 0 → s.count = (s.queue.length : ℤ) ∧ s.queue.length ≤ s.window) ∧
  (s.window = 0 → s.queue = []) ∧
  (s.count = 0 → (∀ m ∈ s.means, m = 0) ∧ (∀ u, s.sums u = 0)) ∧
  (∀ u, u ∉ s.tracked → s.sums u = 0)

/-- Reachability for the joint engine: every state obtainable from a
fresh engine by a sequence of pushes (including failed ones). -/
inductive ReachJ (tuples : List Tuple) (vars w : ℕ) (d : Option ℚ) : JState → Prop
  | init : ReachJ tuples vars w d (jointNewCore tuples vars w d)
  | step (xs : List ℚ) (s : JState) : ReachJ tuples vars w d s →
      ReachJ tuples vars w d (jointUnsafePush xs s).2

/-! ## List helper lemmas -/

lemma getD_set_ne (l : List ℚ) (k j : ℕ) (v : ℚ) (h : j ≠ k) :
    (l.set k v).getD j 0 = l.getD j 0 := by
  simp [List.getD_eq_getElem?_getD, List.getElem?_set_ne (Ne.symm h)]

lemma getD_set_self (l : List ℚ) (k : ℕ) (v : ℚ) (h : k < l.length) :
    (l.set k v).getD k 0 = v := by
  simp [List.getD_eq_getElem?_getD, List.getElem?_set_self, h]

lemma getD_eq_get (l : List ℚ) (i : ℕ) (h : i < l.length) : l.getD i 0 = l[i] := by
  simp [List.getD_eq_getElem?_getD, List.getElem?_eq_getElem h]

lemma range'_succ_right (m n : ℕ) :
    List.range' m (n + 1) = List.range' m n ++ [m + n] := by
  simpa using @List.range'_concat 1 m n

lemma foldl_set_length (step : List ℚ → ℕ → List ℚ) (V : List ℚ → ℕ → ℚ)
    (hstep : ∀ a k, step a k = a.set k (V a k)) :
    ∀ (ks : List ℕ) (s : List ℚ), (ks.foldl step s).length = s.length := by
  intro ks
  induction ks with
  | nil => intro s; rfl
  | cons k ks ih => intro s; rw [List.foldl_cons, ih, hstep, List.length_set]

lemma foldl_set_getD (step : List ℚ → ℕ → List ℚ) (V : List ℚ → ℕ → ℚ)
    (hstep : ∀ a k, step a k = a.set k (V a k)) (j : ℕ) :
    ∀ (ks : List ℕ) (s : List ℚ), (∀ k ∈ ks, j ≠ k) →
    (ks.foldl step s).getD j 0 = s.getD j 0 := by
  intro ks
  induction ks with
  | nil => intro s _; rfl
  | cons k ks ih =>
    intro s h
    rw [List.foldl_cons, ih _ fun k hk => h k (List.mem_cons_of_mem _ hk),
      hstep, getD_set_ne _ _ _ _ (h k (List.mem_cons_self _ _))]

/-! ## The univariate add/remove recurrence -/

lemma addVal_congr (c δ : ℚ) (k : ℕ) (a b : List ℚ)
    (h : ∀ j, j ≤ k → a.getD j 0 = b.getD j 0) :
    addVal c δ a k = addVal c δ b k := by
  unfold addVal
  rw [h k le_rfl]
  congr 1
  exact congrArg List.sum (List.map_congr_left fun i _ => by rw [h (k - i) (Nat.sub_le _ _)])

lemma removeVal_inv (c δ : ℚ) (k : ℕ) (P s : List ℚ)
    (hk : P.getD k 0 = addVal c δ s k)
    (hlow : ∀ i ∈ List.range' 1 (k - 2), P.getD (k - i) 0 = s.getD (k - i) 0) :
    removeVal (c - 1) δ P k = s.getD k 0 := by
  have hc : c - 1 + 1 = c := by ring
  unfold removeVal
  simp only [hc]
  have hmap : List.map (fun i => binom k i * sign i * (δ / c) ^ i * P.getD (k - i) 0)
        (List.range' 1 (k - 2))
      = List.map (fun i => binom k i * sign i * (δ / c) ^ i * s.getD (k - i) 0)
        (List.range' 1 (k - 2)) :=
    List.map_congr_left fun i hi => by rw [hlow i hi]
  rw [hmap, hk]
  unfold addVal
  ring

lemma addFold_char (c δ : ℚ) : ∀ (m : ℕ) (s : List ℚ), 2 + m ≤ s.length → ∀ j,
    (((List.range' 2 m).reverse).foldl (addStep c δ) s).getD j 0
      = if 2 ≤ j ∧ j < 2 + m then addVal c δ s j else s.getD j 0 := by
  intro m
  induction m with
  | zero =>
    intro s _ j
    rw [if_neg (by omega)]
    rfl
  | succ m ih =>
    intro s hlen j
    rw [range'_succ_right, List.reverse_append, List.reverse_singleton, List.singleton_append,
      List.foldl_cons]
    have hlen' : 2 + m ≤ (addStep c δ s (2 + m)).length := by
      rw [addStep, List.length_set]; omega
    rw [ih (addStep c δ s (2 + m)) hlen' j]
    by_cases h1 : 2 ≤ j ∧ j < 2 + m
    · rw [if_pos h1, if_pos ⟨h1.1, by omega⟩]
      exact addVal_congr c δ j _ s fun i hij => getD_set_ne _ _ _ _ (by omega)
    · rw [if_neg h1]
      by_cases h2 : j = 2 + m
      · subst h2
        rw [if_pos ⟨by omega, by omega⟩]
        exact getD_set_self s (2 + m) _ (by omega)
      · rw [if_neg (by omega)]
        exact getD_set_ne s (2 + m) j _ h2

lemma removeFold_restore (c δ : ℚ) (s : List ℚ) (M : ℕ) (hM : 2 + M ≤ s.length) :
    ∀ (m : ℕ), m ≤ M → ∀ j,
    ((List.range' 2 m).foldl (removeStep (c - 1) δ)
        (((List.range' 2 M).reverse).foldl (addStep c δ) s)).getD j 0
      = if 2 ≤ j ∧ j < 2 + m then s.getD j 0
        else (((List.range' 2 M).reverse).foldl (addStep c δ) s).getD j 0 := by
  intro m
  induction m with
  | zero =>
    intro _ j
    rw [if_neg (by omega)]
    rfl
  | succ m ih =>
    intro hm j
    have hA_len : (((List.range' 2 M).reverse).foldl (addStep c δ) s).length = s.length :=
      foldl_set_length (addStep c δ) (addVal c δ) (fun _ _ => rfl) _ s
    have hP_len :
        ((List.range' 2 m).foldl (removeStep (c - 1) δ)
          (((List.range' 2 M).reverse).foldl (addStep c δ) s)).length = s.length := by
      rw [foldl_set_length (removeStep (c - 1) δ) (removeVal (c - 1) δ) (fun _ _ => rfl),
        hA_len]
    rw [range'_succ_right, List.foldl_append, List.foldl_cons, List.foldl_nil]
    have hPj := ih (by omega)
    have hval : removeVal (c - 1) δ
        ((List.range' 2 m).foldl (removeStep (c - 1) δ)
          (((List.range' 2 M).reverse).foldl (addStep c δ) s)) (2 + m)
        = s.getD (2 + m) 0 := by
      apply removeVal_inv
      · rw [hPj (2 + m), if_neg (by omega),
          addFold_char c δ M s hM (2 + m), if_pos ⟨by omega, by omega⟩]
      · intro i hi
        have hib := List.mem_range'_1.1 hi
        rw [hPj, if_pos ⟨by omega, by omega⟩]
    by_cases h2 : j = 2 + m
    · subst h2
      rw [show removeStep (c - 1) δ _ (2 + m) = List.set _ (2 + m) (removeVal (c - 1) δ _ (2 + m))
          from rfl,
        getD_set_self _ _ _ (by omega), hval, if_pos ⟨by omega, by omega⟩]
    · rw [show removeStep (c - 1) δ _ (2 + m) = List.set _ (2 + m) (removeVal (c - 1) δ _ (2 + m))
          from rfl,
        getD_set_ne _ _ _ _ h2, hPj j]
      by_cases h1 : 2 ≤ j ∧ j < 2 + m
      · rw [if_pos h1, if_pos ⟨h1.1, by omega⟩]
      · rw [if_neg h1, if_neg (by omega)]

/-- The in-place ascending removal loop is the exact inverse of the
in-place descending insertion loop, over exact rational arithmetic. -/
lemma remove_add_sums (c δ : ℚ) (s : List ℚ) :
    (loopKs s.length).foldl (removeStep (c - 1) δ)
      (((loopKs s.length).reverse).foldl (addStep c δ) s) = s := by
  unfold loopKs
  have hA_len : (((List.range' 2 (s.length - 2)).reverse).foldl (addStep c δ) s).length
      = s.length :=
    foldl_set_length (addStep c δ) (addVal c δ) (fun _ _ => rfl) _ s
  have hR_len : ((List.range' 2 (s.length - 2)).foldl (removeStep (c - 1) δ)
      (((List.range' 2 (s.length - 2)).reverse).foldl (addStep c δ) s)).length = s.length := by
    rw [foldl_set_length (removeStep (c - 1) δ) (removeVal (c - 1) δ) (fun _ _ => rfl), hA_len]
  by_cases h : s.length < 2
  · have h0 : s.length - 2 = 0 := by omega
    rw [h0]
    rfl
  · have hM : 2 + (s.length - 2) ≤ s.length := by omega
    apply List.ext_getElem (by rw [hR_len])
    intro i h1 h2
    rw [← getD_eq_get _ _ h1, ← getD_eq_get _ _ h2,
      removeFold_restore c δ s (s.length - 2) hM (s.length - 2) le_rfl i]
    by_cases hi : 2 ≤ i
    · rw [if_pos ⟨hi, by omega⟩]
    · rw [if_neg (by omega), addFold_char c δ (s.length - 2) s hM i, if_neg (by omega)]

lemma mean_restore (m x q : ℚ) (h1 : q ≠ 0) (h2 : q + 1 ≠ 0) :
    (m + (x - m) / (q + 1)) - (x - (m + (x - m) / (q + 1))) / q = m := by
  field_simp
  ring

/-- `remove` is the exact inverse of `add` on any state with a positive
count, over exact rational arithmetic. -/
lemma momentRemove_momentAdd (x : ℚ) (s : MState) (h : 1 ≤ s.count) :
    momentRemove x (momentAdd x s) = s := by
  obtain ⟨m, sums, n, w, d, q⟩ := s
  simp only at h
  have hq1 : ((n : ℤ) : ℚ) ≠ 0 := Int.cast_ne_zero.2 (by omega)
  have hq2 : ((n : ℤ) : ℚ) + 1 ≠ 0 := by
    have : (1 : ℚ) ≤ ((n : ℤ) : ℚ) := by exact_mod_cast h
    linarith
  have hcast1 : ((n + 1 : ℤ) : ℚ) = ((n : ℤ) : ℚ) + 1 := by push_cast; ring
  have hcast2 : ((n + 1 - 1 : ℤ) : ℚ) = ((n + 1 : ℤ) : ℚ) - 1 := by push_cast; ring
  have hmean : (m + (x - m) / ((n + 1 : ℤ) : ℚ))
      - (x - (m + (x - m) / ((n + 1 : ℤ) : ℚ))) / ((n + 1 - 1 : ℤ) : ℚ) = m := by
    rw [hcast1, hcast2, hcast1]
    have : ((n : ℤ) : ℚ) + 1 - 1 = ((n : ℤ) : ℚ) := by ring
    rw [this]
    exact mean_restore m x _ hq1 hq2
  simp only [momentAdd, momentRemove]
  rw [if_pos (by omega : (0 : ℤ) < n + 1 - 1)]
  have hAlen : (((loopKs sums.length).reverse).foldl
      (addStep ((n + 1 : ℤ) : ℚ) (x - m)) sums).length = sums.length :=
    foldl_set_length _ (addVal ((n + 1 : ℤ) : ℚ) (x - m)) (fun _ _ => rfl) _ _
  simp only [MState.mk.injEq]
  refine ⟨hmean, ?_, by omega, trivial, trivial, trivial⟩
  rw [hmean, hAlen, hcast2,
    remove_add_sums (((n + 1 : ℤ) : ℚ)) (x - m) sums]

/-- `remove ∘ add` is the identity on the all-zero state with count 0 —
the removal ends in the hard-reset branch. -/
lemma momentRemove_momentAdd_zero (x : ℚ) (s : MState) (h : s.count = 0)
    (hm : s.mean = 0) (hs : s.sums = List.replicate s.sums.length 0) :
    momentRemove x (momentAdd x s) = s := by
  obtain ⟨m, sums, n, w, d, q⟩ := s
  simp only at h hm hs
  subst h
  simp only [momentAdd, momentRemove]
  rw [if_neg (by omega : ¬ (0 : ℤ) < 0 + 1 - 1)]
  have hAlen : (((loopKs sums.length).reverse).foldl
      (addStep ((0 + 1 : ℤ) : ℚ) (x - m)) sums).length = sums.length :=
    foldl_set_length _ (addVal ((0 + 1 : ℤ) : ℚ) (x - m)) (fun _ _ => rfl) _ _
  simp only [MState.mk.injEq]
  refine ⟨hm.symm, ?_, by omega, trivial, trivial, trivial⟩
  rw [List.map_const', hAlen, ← hs]

/-! ## Invariant preservation for the univariate engine -/

lemma getD_replicate_zero (n j : ℕ) : (List.replicate n (0 : ℚ)).getD j 0 = 0 := by
  rw [List.getD_eq_getElem?_getD, List.getElem?_replicate]
  split <;> rfl

lemma momentAdd_count (x : ℚ) (s : MState) : (momentAdd x s).count = s.count + 1 := rfl

lemma momentAdd_queue (x : ℚ) (s : MState) : (momentAdd x s).queue = s.queue := rfl

lemma momentAdd_window (x : ℚ) (s : MState) : (momentAdd x s).window = s.window := rfl

lemma momentAddDecay_count (x : ℚ) (s : MState) : (momentAddDecay x s).count = s.count + 1 := rfl

lemma momentAddDecay_queue (x : ℚ) (s : MState) : (momentAddDecay x s).queue = s.queue := rfl

lemma momentAddDecay_window (x : ℚ) (s : MState) : (momentAddDecay x s).window = s.window := rfl

lemma momentRemove_count (x : ℚ) (s : MState) : (momentRemove x s).count = s.count - 1 := by
  unfold momentRemove; split <;> rfl

lemma momentRemove_queue (x : ℚ) (s : MState) : (momentRemove x s).queue = s.queue := by
  unfold momentRemove; split <;> rfl

lemma momentRemove_window (x : ℚ) (s : MState) : (momentRemove x s).window = s.window := by
  unfold momentRemove; split <;> rfl

lemma momentRemove_decay (x : ℚ) (s : MState) : (momentRemove x s).decay = s.decay := by
  unfold momentRemove; split <;> rfl

lemma mem_loopKs_reverse {k len : ℕ} (h : k ∈ (loopKs len).reverse) : 2 ≤ k := by
  rw [List.mem_reverse] at h
  unfold loopKs at h
  exact (List.mem_range'_1.1 h).1

lemma mem_loopKs {k len : ℕ} (h : k ∈ loopKs len) : 2 ≤ k :=
  (List.mem_range'_1.1 h).1

/-- `add` never touches the order-0 and order-1 accumulators. -/
lemma momentAdd_getD_low (x : ℚ) (s : MState) (j : ℕ) (hj : j < 2) :
    (momentAdd x s).sums.getD j 0 = s.sums.getD j 0 := by
  simp only [momentAdd]
  refine foldl_set_getD _ (addVal _ _) (fun _ _ => rfl) j _ _ fun k hk => ?_
  have := mem_loopKs_reverse hk
  omega

/-- `addDecay` never touches the order-0 and order-1 accumulators. -/
lemma momentAddDecay_getD_low (x : ℚ) (s : MState) (j : ℕ) (hj : j < 2) :
    (momentAddDecay x s).sums.getD j 0 = s.sums.getD j 0 := by
  simp only [momentAddDecay]
  refine foldl_set_getD _ (decayVal _ _) (fun _ _ => rfl) j _ _ fun k hk => ?_
  have := mem_loopKs_reverse hk
  omega

/-- `remove` leaves the order-0 and order-1 accumulators unchanged:
its loop only touches orders ≥ 2, and the hard reset writes the 0 they
already hold. -/
lemma momentRemove_getD_low (x : ℚ) (s : MState) (j : ℕ) (hj : j < 2)
    (h0 : s.sums.getD 0 0 = 0) (h1 : s.sums.getD 1 0 = 0) :
    (momentRemove x s).sums.getD j 0 = s.sums.getD j 0 := by
  unfold momentRemove
  split
  · refine foldl_set_getD _ (removeVal _ _) (fun _ _ => rfl) j _ _ fun k hk => ?_
    have := mem_loopKs hk
    omega
  · show (s.sums.map fun _ => (0 : ℚ)).getD j 0 = s.sums.getD j 0
    rw [List.map_const', getD_replicate_zero]
    have : j = 0 ∨ j = 1 := by omega
    rcases this with rfl | rfl
    · exact h0.symm
    · exact h1.symm

/-- One push preserves the univariate engine invariant. -/
lemma invM_push (x : ℚ) (s : MState) (h : InvM s) : InvM (momentUnsafePush x s) := by
  obtain ⟨hc0, hw, hw0, _, h0, h1⟩ := h
  have key : ∀ s1 : MState, 0 ≤ s1.count →
      (s1.window ≠ 0 → s1.count + 1 = (s1.queue.length : ℤ) ∧ s1.queue.length ≤ s1.window) →
      (s1.window = 0 → s1.queue = []) →
      s1.sums.getD 0 0 = 0 → s1.sums.getD 1 0 = 0 →
      InvM (if s1.decay = none then momentAdd x s1 else momentAddDecay x s1) := by
    intro s1 k0 kw kw0 k0' k1'
    split
    · exact ⟨by rw [momentAdd_count]; omega,
        fun hwin => by
          rw [momentAdd_count, momentAdd_queue]
          exact kw (by rwa [momentAdd_window] at hwin),
        fun hwin => by
          rw [momentAdd_queue]
          exact kw0 (by rwa [momentAdd_window] at hwin),
        fun hc => by rw [momentAdd_count] at hc; omega,
        momentAdd_getD_low x s1 0 (by omega) ▸ k0',
        momentAdd_getD_low x s1 1 (by omega) ▸ k1'⟩
    · exact ⟨by rw [momentAddDecay_count]; omega,
        fun hwin => by
          rw [momentAddDecay_count, momentAddDecay_queue]
          exact kw (by rwa [momentAddDecay_window] at hwin),
        fun hwin => by
          rw [momentAddDecay_queue]
          exact kw0 (by rwa [momentAddDecay_window] at hwin),
        fun hc => by rw [momentAddDecay_count] at hc; omega,
        momentAddDecay_getD_low x s1 0 (by omega) ▸ k0',
        momentAddDecay_getD_low x s1 1 (by omega) ▸ k1'⟩
  unfold momentUnsafePush
  by_cases hwin : s.window = 0
  · rw [if_neg (by omega : ¬ s.window ≠ 0)]
    exact key s hc0 (fun hk => absurd hwin hk) hw0 h0 h1
  · rw [if_pos hwin]
    obtain ⟨hcq, hqw⟩ := hw hwin
    by_cases hfull : s.queue.length = s.window
    · rw [if_pos hfull]
      match hq : s.queue with
      | [] =>
        exfalso
        rw [hq] at hfull
        simp at hfull
        omega
      | t :: rest =>
        refine key _ ?_ (fun _ => ?_)
          (fun hz => by
            have hz' : (momentRemove t s).window = 0 := hz
            rw [momentRemove_window] at hz'
            exact absurd hz' hwin) ?_ ?_
        · show 0 ≤ (momentRemove t s).count
          rw [momentRemove_count]
          rw [hq] at hcq
          simp at hcq
          omega
        · show (momentRemove t s).count + 1 = ((rest ++ [x]).length : ℤ) ∧
            (rest ++ [x]).length ≤ (momentRemove t s).window
          rw [momentRemove_count, momentRemove_window]
          rw [hq] at hcq hfull
          simp at hcq hfull ⊢
          omega
        · show (momentRemove t s).sums.getD 0 0 = 0
          rw [momentRemove_getD_low t s 0 (by omega) h0 h1]
          exact h0
        · show (momentRemove t s).sums.getD 1 0 = 0
          rw [momentRemove_getD_low t s 1 (by omega) h0 h1]
          exact h1
    · rw [if_neg hfull]
      refine key _ hc0 (fun _ => ?_) (fun hz => absurd hz hwin) h0 h1
      show s.count + 1 = ((s.queue ++ [x]).length : ℤ) ∧ (s.queue ++ [x]).length ≤ s.window
      simp
      omega

/-- Every reachable univariate engine state satisfies the invariant. -/
lemma reachM_invM {L w : ℕ} {d : Option ℚ} {s : MState} (h : ReachM L w d s) : InvM s := by
  induction h with
  | init =>
    exact ⟨le_refl 0, fun _ => by simp, fun _ => rfl,
      fun _ => ⟨rfl, by simp⟩, getD_replicate_zero L 0, getD_replicate_zero L 1⟩
  | step x s _ ih => exact invM_push x s ih

/-! ## The joint engine: scratch-set characterization -/

lemma foldl_fun_update (g : Tuple → ℚ) :
    ∀ (l : List Tuple) (ns0 : Tuple → ℚ) (u : Tuple),
    (l.foldl (fun ns a => fun v => if v = a then g a else ns v) ns0) u
      = if u ∈ l then g u else ns0 u := by
  intro l
  induction l with
  | nil => intro ns0 u; simp
  | cons a l ih =>
    intro ns0 u
    rw [List.foldl_cons, ih]
    by_cases hl : u ∈ l
    · rw [if_pos hl, if_pos (List.mem_cons_of_mem _ hl)]
    · rw [if_neg hl]
      by_cases ha : u = a
      · subst ha
        simp
      · simp [List.mem_cons, ha, hl]

/-- The scratch set written by the full pass of `joint.Core.add`: on the
sub-tuple closure of the target tuples it holds the per-tuple value
computed from the committed pre-push sums; elsewhere it is untouched. -/
lemma jointAdd_ns (g : Tuple → ℚ) :
    ∀ (ts : List Tuple) (ns0 : Tuple → ℚ) (u : Tuple),
    (ts.foldl (fun ns t =>
        ((subTuples t).reverse).foldl (fun ns a => fun v => if v = a then g a else ns v) ns)
      ns0) u
      = if u ∈ closureL ts then g u else ns0 u := by
  intro ts
  induction ts with
  | nil => intro ns0 u; simp [closureL]
  | cons t ts ih =>
    intro ns0 u
    have hmem : u ∈ closureL (t :: ts) ↔ u ∈ subTuples t ∨ u ∈ closureL ts := by
      simp [closureL]
    rw [List.foldl_cons, ih]
    by_cases hts : u ∈ closureL ts
    · rw [if_pos hts, if_pos (hmem.2 (Or.inr hts))]
    · rw [if_neg hts, foldl_fun_update g]
      by_cases ht : u ∈ (subTuples t).reverse
      · rw [if_pos ht, if_pos (hmem.2 (Or.inl (List.mem_reverse.1 ht)))]
      · rw [if_neg ht,
          if_neg (fun hc => (hmem.1 hc).elim
            (fun h => ht (List.mem_reverse.2 h)) hts)]

/-- `joint.Core.add` satisfies the spec's scratch-then-commit discipline
exactly: it is extensionally equal to the reference definition that
computes every scratch value from the committed pre-push sums and commits
once after the full pass. -/
lemma jointAdd_eq_spec (xs : List ℚ) (s : JState) : jointAdd xs s = specJointAdd xs s := by
  obtain ⟨means, tuples, sums, newSums, tracked, count, window, decay, queue⟩ := s
  simp only [jointAdd, specJointAdd, JState.mk.injEq]
  have hns := jointAdd_ns
    (jointAddVal ((count + 1 : ℤ) : ℚ) ((xs.zip means).map fun p => p.1 - p.2) sums)
    tuples newSums
  refine ⟨trivial, trivial, funext fun u => ?_, funext fun u => hns u, trivial, trivial, trivial, trivial, trivial⟩
  by_cases h : u ∈ tracked
  · rw [if_pos h, if_pos h, hns u]
  · rw [if_neg h, if_neg h]

/-! ## Invariant preservation for the joint engine -/

lemma jointAdd_count (xs : List ℚ) (s : JState) : (jointAdd xs s).count = s.count + 1 := rfl

lemma jointAdd_queue (xs : List ℚ) (s : JState) : (jointAdd xs s).queue = s.queue := rfl

lemma jointAdd_window (xs : List ℚ) (s : JState) : (jointAdd xs s).window = s.window := rfl

lemma jointAdd_tracked (xs : List ℚ) (s : JState) : (jointAdd xs s).tracked = s.tracked := rfl

lemma jointAddDecay_count (xs : List ℚ) (s : JState) :
    (jointAddDecay xs s).count = s.count + 1 := rfl

lemma jointAddDecay_queue (xs : List ℚ) (s : JState) :
    (jointAddDecay xs s).queue = s.queue := rfl

lemma jointAddDecay_window (xs : List ℚ) (s : JState) :
    (jointAddDecay xs s).window = s.window := rfl

lemma jointAddDecay_tracked (xs : List ℚ) (s : JState) :
    (jointAddDecay xs s).tracked = s.tracked := rfl

lemma jointRemove_count (xs : List ℚ) (s : JState) :
    (jointRemove xs s).count = s.count - 1 := by
  unfold jointRemove; split <;> rfl

lemma jointRemove_queue (xs : List ℚ) (s : JState) :
    (jointRemove xs s).queue = s.queue := by
  unfold jointRemove; split <;> rfl

lemma jointRemove_window (xs : List ℚ) (s : JState) :
    (jointRemove xs s).window = s.window := by
  unfold jointRemove; split <;> rfl

lemma jointRemove_tracked (xs : List ℚ) (s : JState) :
    (jointRemove xs s).tracked = s.tracked := by
  unfold jointRemove; split <;> rfl

lemma jointRemove_decay (xs : List ℚ) (s : JState) :
    (jointRemove xs s).decay = s.decay := by
  unfold jointRemove; split <;> rfl

lemma jointAdd_sums_untracked (xs : List ℚ) (s : JState) (u : Tuple) (hu : u ∉ s.tracked) :
    (jointAdd xs s).sums u = s.sums u := by
  simp only [jointAdd]
  rw [if_neg hu]

lemma jointAddDecay_sums_untracked (xs : List ℚ) (s : JState) (u : Tuple)
    (hu : u ∉ s.tracked) : (jointAddDecay xs s).sums u = s.sums u := by
  simp only [jointAddDecay]
  rw [if_neg hu]

lemma jointRemoveFold_fst_untracked (tracked : List Tuple) (c : ℚ) (δ : List ℚ) (u : Tuple)
    (hu : u ∉ tracked) :
    ∀ (ts : List Tuple) (p : (Tuple → ℚ) × (Tuple → ℚ)),
    ((ts.foldl (fun sn t =>
        (fun v => if v ∈ tracked then jointRemovePass c δ sn.1 t sn.2 v else sn.1 v,
          jointRemovePass c δ sn.1 t sn.2)) p).1) u = p.1 u := by
  intro ts
  induction ts with
  | nil => intro p; rfl
  | cons t ts ih =>
    intro p
    rw [List.foldl_cons, ih]
    simp [hu]

lemma jointRemove_sums_untracked (xs : List ℚ) (s : JState) (u : Tuple)
    (hu : u ∉ s.tracked) : (jointRemove xs s).sums u = s.sums u := by
  unfold jointRemove
  split
  · exact jointRemoveFold_fst_untracked s.tracked _ _ u hu s.tuples (s.sums, s.newSums)
  · show (if u ∈ s.tracked then 0 else s.sums u) = s.sums u
    rw [if_neg hu]

/-- One push (successful or not) preserves the joint engine invariant. -/
lemma invJ_push (xs : List ℚ) (s : JState) (h : InvJ s) : InvJ (jointUnsafePush xs s).2 := by
  unfold jointUnsafePush
  by_cases harity : xs.length ≠ s.means.length
  · rw [if_pos harity]
    exact h
  · rw [if_neg harity]
    obtain ⟨hc0, hw, hw0, _, hout⟩ := h
    have key : ∀ s1 : JState, 0 ≤ s1.count →
        (s1.window ≠ 0 → s1.count + 1 = (s1.queue.length : ℤ) ∧ s1.queue.length ≤ s1.window) →
        (s1.window = 0 → s1.queue = []) →
        (∀ u, u ∉ s1.tracked → s1.sums u = 0) →
        InvJ (Prod.snd (α := Option JErr)
          (none, if s1.decay = none then jointAdd xs s1 else jointAddDecay xs s1)) := by
      intro s1 k0 kw kw0 kout
      show InvJ (if s1.decay = none then jointAdd xs s1 else jointAddDecay xs s1)
      split
      · exact ⟨by rw [jointAdd_count]; omega,
          fun hwin => by
            rw [jointAdd_count, jointAdd_queue]
            exact kw (by rwa [jointAdd_window] at hwin),
          fun hwin => by
            rw [jointAdd_queue]
            exact kw0 (by rwa [jointAdd_window] at hwin),
          fun hc => by rw [jointAdd_count] at hc; omega,
          fun u hu => by
            rw [jointAdd_tracked] at hu
            rw [jointAdd_sums_untracked xs s1 u hu]
            exact kout u hu⟩
      · exact ⟨by rw [jointAddDecay_count]; omega,
          fun hwin => by
            rw [jointAddDecay_count, jointAddDecay_queue]
            exact kw (by rwa [jointAddDecay_window] at hwin),
          fun hwin => by
            rw [jointAddDecay_queue]
            exact kw0 (by rwa [jointAddDecay_window] at hwin),
          fun hc => by rw [jointAddDecay_count] at hc; omega,
          fun u hu => by
            rw [jointAddDecay_tracked] at hu
            rw [jointAddDecay_sums_untracked xs s1 u hu]
            exact kout u hu⟩
    by_cases hwin : s.window = 0
    · rw [if_neg (by omega : ¬ s.window ≠ 0)]
      exact key s hc0 (fun hk => absurd hwin hk) hw0 hout
    · rw [if_pos hwin]
      obtain ⟨hcq, hqw⟩ := hw hwin
      by_cases hfull : s.queue.length = s.window
      · rw [if_pos hfull]
        match hq : s.queue with
        | [] =>
          exfalso
          rw [hq] at hfull
          simp at hfull
          omega
        | t :: rest =>
          refine key _ ?_ (fun _ => ?_)
            (fun hz => by
              have hz' : (jointRemove t s).window = 0 := hz
              rw [jointRemove_window] at hz'
              exact absurd hz' hwin) ?_
          · show 0 ≤ (jointRemove t s).count
            rw [jointRemove_count]
            rw [hq] at hcq
            simp at hcq
            omega
          · show (jointRemove t s).count + 1 = ((rest ++ [xs]).length : ℤ) ∧
              (rest ++ [xs]).length ≤ (jointRemove t s).window
            rw [jointRemove_count, jointRemove_window]
            rw [hq] at hcq hfull
            simp at hcq hfull ⊢
            omega
          · show ∀ u, u ∉ (jointRemove t s).tracked → (jointRemove t s).sums u = 0
            intro u hu
            rw [jointRemove_tracked] at hu
            rw [jointRemove_sums_untracked t s u hu]
            exact hout u hu
      · rw [if_neg hfull]
        refine key _ hc0 (fun _ => ?_) (fun hz => absurd hz hwin) hout
        show s.count + 1 = ((s.queue ++ [xs]).length : ℤ) ∧ (s.queue ++ [xs]).length ≤ s.window
        simp
        omega

/-- Every reachable joint engine state satisfies the invariant. -/
lemma reachJ_invJ {tuples : List Tuple} {vars w : ℕ} {d : Option ℚ} {s : JState}
    (h : ReachJ tuples vars w d s) : InvJ s := by
  induction h with
  | init =>
    exact ⟨le_refl 0, fun _ => by simp [jointNewCore], fun _ => rfl,
      fun _ => ⟨fun m hm => (List.eq_of_mem_replicate hm), fun _ => rfl⟩, fun _ _ => rfl⟩
  | step xs s _ ih => exact invJ_push xs s ih

/-! ## Claim theorems -/

/-- C1: for every reachable univariate engine state S (any fixed window
and decay configuration) and every observation x, `remove x (add x S)`
restores the prior mean, every tracked centralized power sum and the
count exactly — in this exact-rational idealization of floating point,
bit-for-bit with no drift. -/
theorem c1_add_remove_inverse (L w : ℕ) (d : Option ℚ) (s : MState) (x : ℚ)
    (h : ReachM L w d s) : momentRemove x (momentAdd x s) = s := by
  obtain ⟨hc0, _, _, hz, _, _⟩ := reachM_invM h
  rcases eq_or_lt_of_le hc0 with heq | hlt
  · obtain ⟨hm, hs⟩ := hz heq.symm
    exact momentRemove_momentAdd_zero x s heq.symm hm hs
  · exact momentRemove_momentAdd x s (by omega)

/-- Witness for C1 at a concrete reachable state (one observation pushed
into a fresh unbounded engine) and observation 7. -/
theorem c1_add_remove_inverse_witness :
    momentRemove 7 (momentAdd 7 (momentUnsafePush 3
      { mean := 0, sums := List.replicate 5 0, count := 0, window := 0, decay := none,
        queue := [] }))
      = momentUnsafePush 3
        { mean := 0, sums := List.replicate 5 0, count := 0, window := 0, decay := none,
          queue := [] } :=
  c1_add_remove_inverse 5 0 none _ 7 (ReachM.step 3 _ ReachM.init)

/-- C6: in every reachable state of either engine, `count = 0` implies
every mean and every sum accumulator is exactly 0; and a windowed removal
that drops the count to 0 skips the inverse arithmetic and hard-resets
every accumulator to exactly 0. -/
theorem c6_zero_reset :
    (∀ (L w : ℕ) (d : Option ℚ) (s : MState), ReachM L w d s → s.count = 0 →
      s.mean = 0 ∧ s.sums = List.replicate s.sums.length 0)
    ∧ (∀ (x : ℚ) (s : MState), s.count = 1 →
      momentRemove x s
        = { s with count := 0, mean := 0, sums := List.replicate s.sums.length 0 })
    ∧ (∀ (tuples : List Tuple) (vars w : ℕ) (d : Option ℚ) (s : JState),
      ReachJ tuples vars w d s → s.count = 0 →
      (∀ m ∈ s.means, m = 0) ∧ (∀ u, s.sums u = 0))
    ∧ (∀ (xs : List ℚ) (s : JState), s.count = 1 →
      (jointRemove xs s).count = 0 ∧ (∀ m ∈ (jointRemove xs s).means, m = 0) ∧
      (∀ u, (jointRemove xs s).sums u = if u ∈ s.tracked then 0 else s.sums u)) := by
  refine ⟨?_, ?_, ?_, ?_⟩
  · intro L w d s h hc
    exact (reachM_invM h).2.2.2.1 hc
  · intro x s h
    obtain ⟨m, sums, n, w', d', q⟩ := s
    simp only at h
    subst h
    unfold momentRemove
    rw [if_neg (show ¬((1 : ℤ) - 1 > 0) by omega)]
    simp [List.map_const']
  · intro tuples vars w d s h hc
    exact (reachJ_invJ h).2.2.2.1 hc
  · intro xs s h
    obtain ⟨means, tuples', sums, ns, tracked, n, w', d', q⟩ := s
    simp only at h
    subst h
    unfold jointRemove
    rw [if_neg (show ¬((1 : ℤ) - 1 > 0) by omega)]
    refine ⟨by norm_num, ?_, fun u => rfl⟩
    intro m hm
    rw [List.map_const'] at hm
    exact List.eq_of_mem_replicate hm

/-- Witness for C6: each conjunct at a concrete state. -/
theorem c6_zero_reset_witness :
    ({ mean := 0, sums := List.replicate 2 0, count := 0, window := 0, decay := none,
       queue := [] } : MState).mean = 0
    ∧ momentRemove 5
        { mean := 3, sums := [1, 2, 3], count := 1, window := 1, decay := none, queue := [5] }
      = { mean := 0, sums := List.replicate 3 0, count := 0, window := 1, decay := none,
          queue := [5] }
    ∧ (∀ u, (jointNewCore [[2]] 1 0 none).sums u = 0)
    ∧ (jointRemove [4]
        { means := [4], tuples := [[2]], sums := fun _ => 0, newSums := fun _ => 0,
          tracked := [[0], [1], [2]], count := 1, window := 1, decay := none,
          queue := [[4]] }).count = 0 := by
  refine ⟨(c6_zero_reset.1 2 0 none _ ReachM.init rfl).1, ?_, ?_, ?_⟩
  · have := c6_zero_reset.2.1 5
      { mean := 3, sums := [1, 2, 3], count := 1, window := 1, decay := none, queue := [5] }
      rfl
    simpa using this
  · exact (c6_zero_reset.2.2.1 [[2]] 1 0 none _ ReachJ.init rfl).2
  · exact (c6_zero_reset.2.2.2 [4] _ rfl).1

/-- C7: the first push into a fresh decayed engine (univariate or joint,
any configured decay in (0,1)) sets the mean (each per-variable mean, for
the joint case) exactly to the pushed value, because the first observation
is treated as having decay 1. -/
theorem c7_decay_bootstrap :
    (∀ (x : ℚ) (s : MState) (dv : ℚ), s.count = 0 → s.decay = some dv →
      0 < dv → dv < 1 → (momentAddDecay x s).mean = x)
    ∧ (∀ (xs : List ℚ) (s : JState) (dv : ℚ), s.count = 0 → s.decay = some dv →
      0 < dv → dv < 1 → xs.length = s.means.length → (jointAddDecay xs s).means = xs) := by
  constructor
  · intro x s dv hc _ _ _
    show s.mean + (if s.count + 1 = 1 then (1 : ℚ) else s.decay.getD 0) * (x - s.mean) = x
    rw [hc, if_pos (show (0 : ℤ) + 1 = 1 by norm_num)]
    ring
  · intro xs s dv hc _ _ _ hlen
    show (xs.zip s.means).map
        (fun p => p.2 + (if s.count + 1 = 1 then (1 : ℚ) else s.decay.getD 0) * (p.1 - p.2))
      = xs
    rw [hc, if_pos (show (0 : ℤ) + 1 = 1 by norm_num)]
    have h1 : ∀ p : ℚ × ℚ, p.2 + 1 * (p.1 - p.2) = p.1 := fun p => by ring
    rw [List.map_congr_left fun p _ => h1 p]
    exact List.map_fst_zip xs s.means (le_of_eq hlen)

/-- Witness for C7: decay 1/2, first value 7 (univariate) and first pair
(7, 9) (joint, two variables). -/
theorem c7_decay_bootstrap_witness :
    (momentAddDecay 7 (momentNewCore [2] 0 (some (1 / 2)))).mean = 7
    ∧ (jointAddDecay [7, 9] (jointNewCore [[1, 1]] 2 0 (some (1 / 2)))).means = [7, 9] :=
  ⟨c7_decay_bootstrap.1 7 _ (1 / 2) rfl rfl (by norm_num) (by norm_num),
    c7_decay_bootstrap.2 [7, 9] _ (1 / 2) rfl rfl (by norm_num) (by norm_num) rfl⟩

/-- C8: pushing a tuple whose arity differs from the number of tracked
variables fails with the arity-mismatch error and returns the engine state
unchanged — the check precedes every accumulator and buffer mutation. -/
theorem c8_arity_guard (xs : List ℚ) (s : JState) (h : xs.length ≠ s.means.length) :
    jointUnsafePush xs s = (some (JErr.arityMismatch xs.length s.means.length), s) := by
  unfold jointUnsafePush
  rw [if_pos h]

/-- Witness for C8: one value pushed into a two-variable engine. -/
theorem c8_arity_guard_witness :
    jointUnsafePush [1] (jointNewCore [[1, 1]] 2 0 none)
      = (some (JErr.arityMismatch 1 2), jointNewCore [[1, 1]] 2 0 none) :=
  c8_arity_guard [1] (jointNewCore [[1, 1]] 2 0 none) (by simp [jointNewCore])

/-- C9: in the joint engine the "no values seen yet" error takes
precedence over argument validation — with count 0, `Mean(i)` and
`Sum(t)` return it for every argument (as does the univariate `Sum(k)`),
and the "not a tracked variable" / "not a tracked power sum" errors can
only be observed on reachable states with a positive count. -/
theorem c9_no_values_precedence :
    (∀ (i : ℤ) (s : JState), s.count = 0 → jointUnsafeMean i s = .error .noValuesSeen)
    ∧ (∀ (t : List ℤ) (s : JState), s.count = 0 → jointUnsafeSum t s = .error .noValuesSeen)
    ∧ (∀ (k : ℤ) (s : MState), s.count = 0 → momentUnsafeSum k s = .error .noValuesSeen)
    ∧ (∀ (tuples : List Tuple) (vars w : ℕ) (d : Option ℚ) (i j : ℤ) (s : JState),
        ReachJ tuples vars w d s → jointUnsafeMean i s = .error (.untrackedVariable j) →
        0 < s.count)
    ∧ (∀ (tuples : List Tuple) (vars w : ℕ) (d : Option ℚ) (t t' : List ℤ) (s : JState),
        ReachJ tuples vars w d s → jointUnsafeSum t s = .error (.untrackedSum t') →
        0 < s.count) := by
  refine ⟨?_, ?_, ?_, ?_, ?_⟩
  · intro i s h
    unfold jointUnsafeMean
    rw [if_pos h]
  · intro t s h
    unfold jointUnsafeSum
    rw [if_pos h]
  · intro k s h
    unfold momentUnsafeSum
    rw [if_pos h]
  · intro tuples vars w d i j s hr he
    have hc0 := (reachJ_invJ hr).1
    rcases eq_or_lt_of_le hc0 with heq | hlt
    · unfold jointUnsafeMean at he
      rw [if_pos heq.symm] at he
      simp at he
    · exact hlt
  · intro tuples vars w d t t' s hr he
    have hc0 := (reachJ_invJ hr).1
    rcases eq_or_lt_of_le hc0 with heq | hlt
    · unfold jointUnsafeSum at he
      rw [if_pos heq.symm] at he
      simp at he
    · exact hlt

/-- Witness for C9: a fresh two-variable joint engine answers "no values
seen yet" even for an out-of-range index and an untracked tuple. -/
theorem c9_no_values_precedence_witness :
    jointUnsafeMean (-3) (jointNewCore [[1, 1]] 2 0 none) = .error .noValuesSeen
    ∧ jointUnsafeSum [5, 5] (jointNewCore [[1, 1]] 2 0 none) = .error .noValuesSeen
    ∧ momentUnsafeSum 2 (momentNewCore [2] 0 none) = .error .noValuesSeen :=
  ⟨c9_no_values_precedence.1 (-3) _ rfl,
    c9_no_values_precedence.2.1 [5, 5] _ rfl,
    c9_no_values_precedence.2.2.1 2 _ rfl⟩

/-- C10: the univariate order-0 and order-1 accumulators are never touched
by the update loops of `add`, `addDecay` and `remove` (which only visit
orders ≥ 2), so on every reachable state with a positive count and order 1
inside the tracked range, `Sum(1)` succeeds and returns exactly 0. -/
theorem c10_first_sum_zero :
    (∀ (x : ℚ) (s : MState) (j : ℕ), j < 2 →
      (momentAdd x s).sums.getD j 0 = s.sums.getD j 0)
    ∧ (∀ (x : ℚ) (s : MState) (j : ℕ), j < 2 →
      (momentAddDecay x s).sums.getD j 0 = s.sums.getD j 0)
    ∧ (∀ (x : ℚ) (s : MState) (j : ℕ), j < 2 → s.sums.getD 0 0 = 0 → s.sums.getD 1 0 = 0 →
      (momentRemove x s).sums.getD j 0 = s.sums.getD j 0)
    ∧ (∀ (L w : ℕ) (d : Option ℚ) (s : MState), ReachM L w d s → 0 < s.count →
      1 < s.sums.length → momentUnsafeSum 1 s = .ok 0) := by
  refine ⟨momentAdd_getD_low, momentAddDecay_getD_low, momentRemove_getD_low, ?_⟩
  intro L w d s hr hc hlen
  obtain ⟨_, _, _, _, _, h1⟩ := reachM_invM hr
  unfold momentUnsafeSum
  rw [if_neg (by omega), if_neg (by omega)]
  rw [show ((1 : ℤ).toNat) = 1 from rfl, h1]

/-- Witness for C10: each conjunct at a concrete input; the last one on
the reachable state obtained by one push into a fresh engine of max
order 2. -/
theorem c10_first_sum_zero_witness :
    (momentAdd 5
      { mean := 1, sums := [0, 0, 4], count := 1, window := 0, decay := none,
        queue := [] }).sums.getD 1 0
      = ({ mean := 1, sums := [0, 0, 4], count := 1, window := 0, decay := none,
           queue := [] } : MState).sums.getD 1 0
    ∧ (momentAddDecay 5
      { mean := 1, sums := [0, 0, 4], count := 1, window := 0, decay := some (1 / 2),
        queue := [] }).sums.getD 1 0
      = ({ mean := 1, sums := [0, 0, 4], count := 1, window := 0, decay := some (1 / 2),
           queue := [] } : MState).sums.getD 1 0
    ∧ (momentRemove 5
      { mean := 1, sums := [0, 0, 4], count := 2, window := 3, decay := none,
        queue := [] }).sums.getD 1 0
      = ({ mean := 1, sums := [0, 0, 4], count := 2, window := 3, decay := none,
           queue := [] } : MState).sums.getD 1 0
    ∧ momentUnsafeSum 1 (momentUnsafePush 3
        { mean := 0, sums := List.replicate 3 0, count := 0, window := 0, decay := none,
          queue := [] }) = .ok 0 := by
  refine ⟨c10_first_sum_zero.1 5 _ 1 (by omega),
    c10_first_sum_zero.2.1 5 _ 1 (by omega),
    c10_first_sum_zero.2.2.1 5 _ 1 (by omega) rfl rfl, ?_⟩
  refine c10_first_sum_zero.2.2.2 3 0 none _ (ReachM.step 3 _ ReachM.init) ?_ ?_
  · show (0 : ℤ) < (momentAdd 3 _).count
    rw [momentAdd_count]
    norm_num
  · show 1 < (momentAdd 3
      { mean := 0, sums := List.replicate 3 0, count := 0, window := 0, decay := none,
        queue := [] }).sums.length
    show 1 < (((loopKs (List.replicate 3 (0 : ℚ)).length).reverse).foldl
      (addStep ((0 + 1 : ℤ) : ℚ) (3 - 0)) (List.replicate 3 0)).length
    rw [foldl_set_length (addStep ((0 + 1 : ℤ) : ℚ) (3 - 0))
      (addVal ((0 + 1 : ℤ) : ℚ) (3 - 0)) (fun _ _ => rfl)]
    simp

/-! ## Concrete evaluations -/

set_option maxHeartbeats 2000000 in
/-- The full state of an undecayed window-3 engine tracking orders
{1,2,3,4} after pushing 1, 2, 3, 4, 8, computed from the embedding. -/
lemma c2_state_eval :
    momentPushList [1, 2, 3, 4, 8] (momentNewCore [1, 2, 3, 4] 3 none)
      = { mean := 5, sums := [0, 0, 14, 18, 98], count := 3, window := 3, decay := none,
          queue := [3, 4, 8] } := by
  norm_num [momentPushList, momentUnsafePush, momentAdd, momentRemove, momentNewCore, maxSum,
    loopKs, addStep, addVal, removeStep, removeVal, List.range', sign, binom, Nat.choose,
    List.foldl, List.getD, List.set]

/-- C2: with window 3 and no decay, after pushing 1, 2, 3, 4 and then 8,
the mean and every tracked centralized power sum equal the values
recomputed directly over exactly {3, 4, 8} — and not the values
recomputed over all five observations pushed. -/
theorem c2_window_matches_batch :
    ((momentPushList [1, 2, 3, 4, 8] (momentNewCore [1, 2, 3, 4] 3 none)).mean
        = batchMean [3, 4, 8]
      ∧ ∀ k, 1 ≤ k → k ≤ 4 →
        (momentPushList [1, 2, 3, 4, 8] (momentNewCore [1, 2, 3, 4] 3 none)).sums.getD k 0
          = batchSum k [3, 4, 8])
    ∧ ¬((momentPushList [1, 2, 3, 4, 8] (momentNewCore [1, 2, 3, 4] 3 none)).mean
        = batchMean [1, 2, 3, 4, 8]
      ∧ ∀ k, 1 ≤ k → k ≤ 4 →
        (momentPushList [1, 2, 3, 4, 8] (momentNewCore [1, 2, 3, 4] 3 none)).sums.getD k 0
          = batchSum k [1, 2, 3, 4, 8]) := by
  rw [c2_state_eval]
  refine ⟨⟨by norm_num [batchMean], fun k h1 h4 => ?_⟩, fun hcon => ?_⟩
  · interval_cases k <;> norm_num [batchSum, batchMean]
  · have := hcon.1
    norm_num [batchMean] at this

/-- Witness for C2 at order 2. -/
theorem c2_window_matches_batch_witness :
    (momentPushList [1, 2, 3, 4, 8] (momentNewCore [1, 2, 3, 4] 3 none)).sums.getD 2 0
      = batchSum 2 [3, 4, 8] :=
  c2_window_matches_batch.1.2 2 (by norm_num) (by norm_num)

set_option maxHeartbeats 1000000 in
/-- The full state of an unbounded undecayed engine tracking orders
{1,2,3,4} after pushing 1, 2, 3, 4, computed from the embedding. -/
lemma c5_state_eval :
    momentPushList [1, 2, 3, 4] (momentNewCore [1, 2, 3, 4] 0 none)
      = { mean := 5 / 2, sums := [0, 0, 5, 0, 41 / 4], count := 4, window := 0, decay := none,
          queue := [] } := by
  norm_num [momentPushList, momentUnsafePush, momentAdd, momentNewCore, maxSum,
    loopKs, addStep, addVal, List.range', sign, binom, Nat.choose,
    List.foldl, List.getD, List.set]

/-- Counterexample to C5 as stated: after pushing 1, 2, 3, 4 the 4th
centralized sum is 41/4 = 10.25, not 16.25 — and 10.25 is the true batch
value `Σ (x − 5/2)^4` over {1, 2, 3, 4}, so the code is right and the
claimed 16.25 is not. -/
theorem c5_counterexample :
    (momentPushList [1, 2, 3, 4] (momentNewCore [1, 2, 3, 4] 0 none)).sums.getD 4 0 = 41 / 4
    ∧ batchSum 4 [1, 2, 3, 4] = 41 / 4
    ∧ ((41 : ℚ) / 4) ≠ 65 / 4 := by
  rw [c5_state_eval]
  norm_num [batchSum, batchMean]

/-- C5 amended: pushing 1, 2, 3, 4 into an unbounded undecayed engine
tracking orders {1,2,3,4} yields mean 5/2, 2nd sum 5, 3rd sum 0 and 4th
sum 41/4 — each the standard batch value recomputed directly. -/
theorem c5_amended_concrete_sums :
    (momentPushList [1, 2, 3, 4] (momentNewCore [1, 2, 3, 4] 0 none)).mean = 5 / 2
    ∧ (momentPushList [1, 2, 3, 4] (momentNewCore [1, 2, 3, 4] 0 none)).sums.getD 2 0 = 5
    ∧ (momentPushList [1, 2, 3, 4] (momentNewCore [1, 2, 3, 4] 0 none)).sums.getD 3 0 = 0
    ∧ (momentPushList [1, 2, 3, 4] (momentNewCore [1, 2, 3, 4] 0 none)).sums.getD 4 0 = 41 / 4
    ∧ batchMean [1, 2, 3, 4] = 5 / 2 ∧ batchSum 2 [1, 2, 3, 4] = 5
    ∧ batchSum 3 [1, 2, 3, 4] = 0 ∧ batchSum 4 [1, 2, 3, 4] = 41 / 4 := by
  rw [c5_state_eval]
  norm_num [batchSum, batchMean]

/-- The state of an unbounded undecayed engine with requested orders
{2, 4} after one push. -/
lemma c4_state_eval :
    momentPushList [1] (momentNewCore [2, 4] 0 none)
      = { mean := 1, sums := [0, 0, 0, 0, 0], count := 1, window := 0, decay := none,
          queue := [] } := by
  norm_num [momentPushList, momentUnsafePush, momentAdd, momentNewCore, maxSum,
    loopKs, addStep, addVal, List.range', sign, binom, Nat.choose,
    List.foldl, List.getD, List.set]

/-- Counterexample to C4 as stated: with only orders {2, 4} requested and
one observation pushed, `Sum(3)` succeeds (order 3 was never requested)
and `Sum(4)` succeeds (order 4 is the maximum tracked order) — the code
only rejects `k ≤ 0` and `k > maxOrder`. -/
theorem c4_counterexample :
    (momentPushList [1] (momentNewCore [2, 4] 0 none)).count = 1
    ∧ (3 : ℤ) ∉ ([2, 4] : List ℤ)
    ∧ momentUnsafeSum 3 (momentPushList [1] (momentNewCore [2, 4] 0 none)) = .ok 0
    ∧ maxSum [2, 4] = 4
    ∧ momentUnsafeSum 4 (momentPushList [1] (momentNewCore [2, 4] 0 none)) = .ok 0 := by
  rw [c4_state_eval]
  refine ⟨rfl, by norm_num, ?_, by norm_num [maxSum], ?_⟩
  · norm_num [momentUnsafeSum]
    rfl
  · norm_num [momentUnsafeSum]
    rfl

lemma le_foldl_max (l : List ℤ) : ∀ a : ℤ, a ≤ l.foldl max a := by
  induction l with
  | nil => intro a; exact le_refl a
  | cons b l ih => intro a; exact le_trans (le_max_left a b) (ih (max a b))

/-- C4 amended: `Sum(k)` returns "no observations yet" whenever
`count = 0`; with a nonzero count it fails with the untracked-order error
iff `k ≤ 0` or `k ≥ len(sums)` — i.e. iff `k` exceeds the maximum
requested order, orders between requested ones included — and otherwise
returns the k-th accumulator; and `NewCore` sizes `sums` to
`maxOrder + 1`. -/
theorem c4_amended_sum_errors :
    (∀ (k : ℤ) (s : MState), s.count = 0 → momentUnsafeSum k s = .error .noValuesSeen)
    ∧ (∀ (k : ℤ) (s : MState), s.count ≠ 0 →
        (momentUnsafeSum k s = .error (.untrackedSum k) ↔ k ≤ 0 ∨ (s.sums.length : ℤ) ≤ k))
    ∧ (∀ (k : ℤ) (s : MState), s.count ≠ 0 → 0 < k → k < (s.sums.length : ℤ) →
        momentUnsafeSum k s = .ok (s.sums.getD k.toNat 0))
    ∧ (∀ (orders : List ℤ) (w : ℕ) (d : Option ℚ),
        ((momentNewCore orders w d).sums.length : ℤ) = maxSum orders + 1) := by
  refine ⟨?_, ?_, ?_, ?_⟩
  · intro k s h
    unfold momentUnsafeSum
    rw [if_pos h]
  · intro k s h
    unfold momentUnsafeSum
    rw [if_neg h]
    by_cases hcond : k ≤ 0 ∨ (s.sums.length : ℤ) ≤ k
    · rw [if_pos hcond]
      exact ⟨fun _ => hcond, fun _ => rfl⟩
    · rw [if_neg hcond]
      exact ⟨fun he => by simp at he, fun hc => absurd hc hcond⟩
  · intro k s h h0 hlen
    unfold momentUnsafeSum
    rw [if_neg h, if_neg (by omega)]
  · intro orders w d
    show ((List.replicate (maxSum orders + 1).toNat (0 : ℚ)).length : ℤ) = maxSum orders + 1
    rw [List.length_replicate, Int.toNat_of_nonneg]
    have := le_foldl_max orders (-1)
    unfold maxSum
    omega

/-- Witness for C4's amended statement: a state with count 1 and three
accumulators answers `Sum(2)` with its order-2 entry. -/
theorem c4_amended_sum_errors_witness :
    momentUnsafeSum 2
      { mean := 1, sums := [0, 0, 5], count := 1, window := 0, decay := none, queue := [] }
      = .ok 5
    ∧ momentUnsafeSum 7 (momentNewCore [2] 0 none) = .error .noValuesSeen := by
  constructor
  · have := c4_amended_sum_errors.2.2.1 2
      { mean := 1, sums := [0, 0, 5], count := 1, window := 0, decay := none, queue := [] }
      (by norm_num) (by norm_num) (by norm_num)
    simpa using this
  · exact c4_amended_sum_errors.1 7 (momentNewCore [2] 0 none) rfl

set_option maxHeartbeats 2000000 in
/-- The code's removal at the window-3 state reached by pushing [1], [2],
[3] into a single-variable joint engine targeting the tuple (3): its
cross terms read the in-progress scratch values, yielding the correct
batch results over the remaining window {2, 3}. -/
lemma c3_code_remove_eval :
    (jointRemove [1] (jointPushList [[1], [2], [3]] (jointNewCore [[3]] 1 3 none))).sums [2]
        = 1 / 2
    ∧ (jointRemove [1] (jointPushList [[1], [2], [3]] (jointNewCore [[3]] 1 3 none))).sums [3]
        = 0 := by
  constructor <;>
    norm_num [jointPushList, jointUnsafePush, jointAdd, jointNewCore, jointRemove,
      jointRemovePass, jointRemoveTerm, jointAddVal, jointAddTerm, powProd, multinom,
      tupleSub, tupleAbs, sign, binom,
      show closureL [[3]] = [[0], [1], [2], [3]] from rfl,
      show subTuples [3] = [[0], [1], [2], [3]] from rfl,
      show subTuples [2] = [[0], [1], [2]] from rfl,
      show subTuples [1] = [[0], [1]] from rfl,
      show subTuples [0] = [[0]] from rfl,
      List.foldl, List.zip, List.zipWith, Nat.choose, List.set, List.getD]

set_option maxHeartbeats 2000000 in
/-- The spec's removal discipline (scratch computed from committed
pre-removal sums only, committed after the full pass) at the same state
produces a different — and wrong — value for the order-3 sum. -/
lemma c3_spec_remove_eval :
    (specJointRemove [1] (jointPushList [[1], [2], [3]] (jointNewCore [[3]] 1 3 none))).sums [3]
      = -9 / 4 := by
  norm_num [jointPushList, jointUnsafePush, jointAdd, jointNewCore, specJointRemove,
    jointRemoveTerm, jointAddVal, jointAddTerm, powProd, multinom,
    tupleSub, tupleAbs, sign, binom,
    show closureL [[3]] = [[0], [1], [2], [3]] from rfl,
    show subTuples [3] = [[0], [1], [2], [3]] from rfl,
    show subTuples [2] = [[0], [1], [2]] from rfl,
    show subTuples [1] = [[0], [1]] from rfl,
    show subTuples [0] = [[0]] from rfl,
    List.foldl, List.zip, List.zipWith, Nat.choose, List.set, List.getD]

/-- Counterexample to C3 as stated: on the reachable window-3 state built
by pushing [1], [2], [3] into a joint engine targeting tuple (3), the
code's windowed removal and the spec's after-full-pass/pre-committed-sums
removal discipline disagree on the order-3 sum (0 versus −9/4), so
removal does **not** follow the same scratch-then-commit-after-full-pass
discipline as the push. -/
theorem c3_counterexample :
    (jointRemove [1] (jointPushList [[1], [2], [3]] (jointNewCore [[3]] 1 3 none))).sums [3]
      ≠ (specJointRemove [1] (jointPushList [[1], [2], [3]] (jointNewCore [[3]] 1 3 none))).sums
          [3] := by
  rw [c3_code_remove_eval.2, c3_spec_remove_eval]
  norm_num

/-- C3 amended: during a single push the joint engine does follow the
spec's discipline exactly — every scratch value reads only the committed
pre-push sums and the scratch set is committed once after the full pass
(`jointAdd` equals the reference definition extensionally); windowed
removal instead reads the in-progress scratch for its cross terms and
commits after each target tuple's pass, which is the correct inversion:
at the counterexample state it reproduces the batch sums over the
remaining window {2, 3}. -/
theorem c3_amended_scratch_commit :
    (∀ (xs : List ℚ) (s : JState), jointAdd xs s = specJointAdd xs s)
    ∧ (jointRemove [1] (jointPushList [[1], [2], [3]] (jointNewCore [[3]] 1 3 none))).sums [2]
        = batchSum 2 [2, 3]
    ∧ (jointRemove [1] (jointPushList [[1], [2], [3]] (jointNewCore [[3]] 1 3 none))).sums [3]
        = batchSum 3 [2, 3] := by
  refine ⟨jointAdd_eq_spec, ?_, ?_⟩
  · rw [c3_code_remove_eval.1]
    norm_num [batchSum, batchMean]
  · rw [c3_code_remove_eval.2]
    norm_num [batchSum, batchMean]

end StreamSpec
